import Mathlib

/-!
Shallow embedding of the cliciv state engine (src/game/ of the repository).

Floating-point amounts (`f64`) are modelled as rationals; the engine's own
round-to-2-decimals policy (src/game/utils.rs, `round_to_2`) makes every
stored value a multiple of 1/100, so rational arithmetic coincides with the
source on every reachable value.  Machine integers (`u64`, `usize`, `i128`)
are modelled as `Nat`/`Int`; no operation of the engine brings them anywhere
near their word size, so wrap-around is not modelled.

The two external primitives the engine calls, but which are not code of this
repository (Rust std / rand crates), are parameters of the development,
collected in `Ext`:
  * `DefaultHasher` (SipHash-1-3), used by the `hash()` methods, becomes an
    arbitrary function `hashWrites : List ℚ → Nat` applied to the written
    fields in the source's order;
  * the per-iteration `ChaChaRng` Bernoulli(1/10) sampling becomes an
    arbitrary Boolean stream `bern`, indexed by the 32-byte ChaCha seed
    (determined by `(seed, prev_hash)` exactly as in `State::get_rng`) and by
    the number of draws consumed so far.
Every theorem is proved for every instantiation of `Ext`.
-/

/- The Batteries rational-arithmetic kernels are sealed `@[irreducible]`,
which blocks kernel evaluation of concrete ledger computations; re-open them
so that `decide` can evaluate the engine on explicit inputs. -/
set_option allowUnsafeReducibility true
attribute [local semireducible] Rat.add Rat.sub Rat.mul Rat.neg Rat.div Rat.inv

namespace Cliciv

/-! ## Numeric utilities (src/game/utils.rs) -/

/-- Floor of a rational, computed on its reduced fraction (equal to
`Int.floor`, proved below). -/
def ratFloor (q : ℚ) : ℤ :=
  q.num / q.den

/-- Rust `f64::round`: round half away from zero. -/
def roundHalfAway (q : ℚ) : ℤ :=
  if 0 ≤ q then ratFloor (q + 1/2) else -ratFloor (-q + 1/2)

/-- Source `round_to_2` from src/game/utils.rs: `(self * 100.0).round() / 100.0`. -/
def round_to_2 (q : ℚ) : ℚ :=
  (roundHalfAway (q * 100) : ℚ) / 100

/-- Rust `as i64` cast of a float: truncation toward zero (T-division on the
reduced fraction). -/
def truncInt (q : ℚ) : ℤ :=
  Int.tdiv q.num q.den

/-- Rust `as usize` cast of a float: negative values go to zero, otherwise
truncation. -/
def truncUsize (q : ℚ) : ℕ :=
  (truncInt q).toNat

instance {ε α : Type} [DecidableEq ε] [DecidableEq α] : DecidableEq (Except ε α) :=
  fun a b =>
    match a, b with
    | .ok x, .ok y =>
      if h : x = y then .isTrue (by rw [h]) else .isFalse (by simp [h])
    | .error x, .error y =>
      if h : x = y then .isTrue (by rw [h]) else .isFalse (by simp [h])
    | .ok _, .error _ => .isFalse (by simp)
    | .error _, .ok _ => .isFalse (by simp)

/-! ## Enumerations (src/game/resources.rs, jobs.rs, buildings.rs, actions.rs) -/

inductive PrimaryResource
  | food
  | wood
  | stone
deriving DecidableEq

inductive SecondaryResource
  | skins
  | herbs
  | ore
deriving DecidableEq

inductive TertiaryResource
  | leather
  | piety
  | metal
deriving DecidableEq

inductive SpecialResource
  | gold
  | corpses
deriving DecidableEq

inductive Resource
  | primary (r : PrimaryResource)
  | secondary (r : SecondaryResource)
  | tertiary (r : TertiaryResource)
  | special (r : SpecialResource)
deriving DecidableEq

/-- Source `PrimaryResource::get_secondary_resource`. -/
def PrimaryResource.get_secondary_resource : PrimaryResource → SecondaryResource
  | .food => .skins
  | .wood => .herbs
  | .stone => .ore

inductive Job
  | farmer
  | woodcutter
  | miner
deriving DecidableEq

/-- Source `Job::get_production_rate`. -/
def Job.get_production_rate : Job → ℚ
  | .farmer => 12/10
  | .woodcutter => 5/10
  | .miner => 2/10

/-- Source `Job::get_resource_production`. -/
def Job.get_resource_production : Job → Resource
  | .farmer => .primary .food
  | .woodcutter => .primary .wood
  | .miner => .primary .stone

inductive Buildings
  | tent
  | woodenHut
  | barn
  | woodStockpile
  | stoneStockpile
deriving DecidableEq

/-- Source `Buildings::costs`. -/
def Buildings.costs : Buildings → List (Resource × ℚ)
  | .tent => [(.primary .wood, 2), (.secondary .skins, 2)]
  | .woodenHut => [(.primary .wood, 20), (.secondary .skins, 1)]
  | .barn => [(.primary .wood, 100)]
  | .woodStockpile => [(.primary .wood, 100)]
  | .stoneStockpile => [(.primary .wood, 100)]

/-- Source `Buildings::population_capacity_increase`. -/
def Buildings.population_capacity_increase : Buildings → ℤ
  | .tent => 1
  | .woodenHut => 3
  | _ => 0

/-- Source `Buildings::primary_resource_storage_increase`. -/
def Buildings.primary_resource_storage_increase :
    Buildings → Option (PrimaryResource × ℚ)
  | .barn => some (.food, 100)
  | .woodStockpile => some (.wood, 100)
  | .stoneStockpile => some (.stone, 100)
  | _ => none

inductive Action
  | idle
  | collect (r : PrimaryResource)
  | recruitCitizen
  | assignJob (j : Job)
  | dischargeJob (j : Job)
  | build (b : Buildings)
deriving DecidableEq

/-! ## Errors (src/game/errors.rs) -/

inductive IterationError
  | notEnaughtResource (r : Resource)
  | notEnaughtFreeLand
  | notEnaughtIdleWorkers
  | noWorkersInJob (j : Job)
  | populationLimitReached
deriving DecidableEq

inductive CheckError
  | hashMismatch
  | invalidStateRecreation (iteration : ℕ) (e : IterationError)
deriving DecidableEq

/-! ## External primitives -/

/-- The 32-byte ChaCha seed built by `State::get_rng` is a fixed injective
little-endian encoding of `(seed, prev_hash)` (plus zero padding); we carry
the pair itself. -/
structure RngBase where
  seed : ℤ
  prev_hash : ℕ
deriving DecidableEq

/-- Source `ChaChaRng` state: its seed plus the number of Bernoulli draws consumed. -/
structure Rng where
  base : RngBase
  consumed : ℕ
deriving DecidableEq

/-- Source `Context` from src/game/state.rs. -/
structure Context where
  rng : Rng
deriving DecidableEq

/-- The external (Rust std / rand) primitives the engine uses. -/
structure Ext where
  bern : RngBase → ℕ → Bool
  hashWrites : List ℚ → ℕ

/-- Source `Bernoulli(1/10).sample_iter(rng).take(n).map(u64::from).sum()`:
the number of successes among the next `n` draws, and the advanced rng. -/
def Rng.sampleSum (ext : Ext) (rng : Rng) (n : ℕ) : ℕ × Rng :=
  (((List.range n).map fun i => if ext.bern rng.base (rng.consumed + i) then 1 else 0).sum,
   { rng with consumed := rng.consumed + n })

/-! ## Resources ledger (src/game/resources.rs) -/

structure Resources where
  food : ℚ
  food_cons_rate : ℚ
  food_prod_rate : ℚ
  food_prod_rate_multiplier : ℚ
  max_food : ℚ
  wood : ℚ
  wood_prod_rate : ℚ
  wood_prod_rate_multiplier : ℚ
  max_wood : ℚ
  stone : ℚ
  stone_prod_rate : ℚ
  stone_prod_rate_multiplier : ℚ
  max_stone : ℚ
  skins : ℚ
  herbs : ℚ
  ore : ℚ
  leather : ℚ
  piety : ℚ
  metal : ℚ
  gold : ℚ
  corpses : ℚ
deriving DecidableEq

/-- Source `impl Default for Resources`. -/
def Resources.default : Resources where
  food := 0
  food_cons_rate := 0
  food_prod_rate := 0
  food_prod_rate_multiplier := 1
  max_food := 200
  wood := 0
  wood_prod_rate := 0
  wood_prod_rate_multiplier := 1
  max_wood := 200
  stone := 0
  stone_prod_rate := 0
  stone_prod_rate_multiplier := 1
  max_stone := 200
  skins := 0
  herbs := 0
  ore := 0
  leather := 0
  piety := 0
  metal := 0
  gold := 0
  corpses := 0

/-- Source `Resources::increase`.  The `&mut Context` parameter is threaded
explicitly.  Note that in the source the `Stone` arm clamps against
`self.max_wood` (resources.rs line 120). -/
def Resources.increase (ext : Ext) (self : Resources) (resource : Resource)
    (amount : ℚ) (ctx : Context) : Except IterationError (Resources × Context) :=
  match resource with
  | .primary primary_resource =>
    let drawn := ctx.rng.sampleSum ext (truncUsize amount)
    let secondary_resource_amount : ℚ := drawn.1
    let ctx2 : Context := { ctx with rng := drawn.2 }
    match primary_resource with
    | .food => .ok ({ self with
        food := round_to_2 (min (self.food + amount) self.max_food),
        skins := round_to_2 (self.skins + secondary_resource_amount) }, ctx2)
    | .wood => .ok ({ self with
        wood := round_to_2 (min (self.wood + amount) self.max_wood),
        herbs := round_to_2 (self.herbs + secondary_resource_amount) }, ctx2)
    | .stone => .ok ({ self with
        stone := round_to_2 (min (self.stone + amount) self.max_wood),
        ore := round_to_2 (self.ore + secondary_resource_amount) }, ctx2)
  | .secondary secondary_resource =>
    match secondary_resource with
    | .skins => .ok ({ self with skins := round_to_2 (self.skins + amount) }, ctx)
    | .herbs => .ok ({ self with herbs := self.herbs + round_to_2 amount }, ctx)
    | .ore => .ok ({ self with ore := round_to_2 (self.ore + amount) }, ctx)
  | .tertiary tertiary_resource =>
    match tertiary_resource with
    | .leather => .ok ({ self with leather := round_to_2 (self.leather + amount) }, ctx)
    | .piety => .ok ({ self with piety := round_to_2 (self.piety + amount) }, ctx)
    | .metal => .ok ({ self with metal := round_to_2 (self.metal + amount) }, ctx)
  | .special special_resource =>
    match special_resource with
    | .gold => .ok ({ self with gold := round_to_2 (self.gold + amount) }, ctx)
    | .corpses => .ok ({ self with corpses := round_to_2 (self.corpses + amount) }, ctx)

/-- Source `Resources::decrease`. -/
def Resources.decrease (self : Resources) (resource : Resource) (amount : ℚ) :
    Except IterationError Resources :=
  match resource with
  | .primary primary_resource =>
    match primary_resource with
    | .food =>
      if 0 ≤ truncInt self.food - truncInt amount then
        .ok { self with food := round_to_2 (self.food - amount) }
      else
        .error (.notEnaughtResource (.primary .food))
    | .wood =>
      if 0 ≤ truncInt self.wood - truncInt amount then
        .ok { self with wood := round_to_2 (self.wood - amount) }
      else
        .error (.notEnaughtResource (.primary .wood))
    | .stone =>
      if 0 ≤ truncInt self.stone - truncInt amount then
        .ok { self with stone := round_to_2 (self.stone - amount) }
      else
        .error (.notEnaughtResource (.primary .stone))
  | .secondary secondary_resource =>
    match secondary_resource with
    | .skins =>
      if 0 ≤ truncInt self.skins - truncInt amount then
        .ok { self with skins := round_to_2 (self.skins - amount) }
      else
        .error (.notEnaughtResource (.secondary .skins))
    | .herbs =>
      if 0 ≤ truncInt self.herbs - truncInt amount then
        .ok { self with herbs := round_to_2 (self.herbs - amount) }
      else
        .error (.notEnaughtResource (.secondary .herbs))
    | .ore =>
      if 0 ≤ truncInt self.ore - truncInt amount then
        .ok { self with ore := round_to_2 (self.ore - amount) }
      else
        .error (.notEnaughtResource (.secondary .ore))
  | .tertiary tertiary_resource =>
    match tertiary_resource with
    | .leather =>
      if 0 ≤ truncInt self.leather - truncInt amount then
        .ok { self with leather := round_to_2 (self.leather - amount) }
      else
        .error (.notEnaughtResource (.tertiary .leather))
    | .piety =>
      if 0 ≤ truncInt self.piety - truncInt amount then
        .ok { self with piety := round_to_2 (self.piety - amount) }
      else
        .error (.notEnaughtResource (.tertiary .piety))
    | .metal =>
      if 0 ≤ truncInt self.metal - truncInt amount then
        .ok { self with metal := round_to_2 (self.metal - amount) }
      else
        .error (.notEnaughtResource (.tertiary .metal))
  | .special special_resource =>
    match special_resource with
    | .gold =>
      if 0 ≤ truncInt self.gold - truncInt amount then
        .ok { self with gold := round_to_2 (self.gold - amount) }
      else
        .error (.notEnaughtResource (.special .gold))
    | .corpses =>
      if 0 ≤ truncInt self.corpses - truncInt amount then
        .ok { self with corpses := round_to_2 (self.corpses - amount) }
      else
        .error (.notEnaughtResource (.special .corpses))

/-- Source `Resources::increase_primary_resource_storage`. -/
def Resources.increase_primary_resource_storage (self : Resources)
    (primary_resource : PrimaryResource) (amount : ℚ) :
    Except IterationError Resources :=
  match primary_resource with
  | .food => .ok { self with max_food := round_to_2 (self.max_food + amount) }
  | .wood => .ok { self with max_wood := round_to_2 (self.max_wood + amount) }
  | .stone => .ok { self with max_stone := round_to_2 (self.max_stone + amount) }

/-- Source `Resources::increase_resource_production_rate`. -/
def Resources.increase_resource_production_rate (self : Resources)
    (resource : Resource) (amount : ℚ) : Except IterationError Resources :=
  match resource with
  | .primary .food => .ok { self with food_prod_rate := round_to_2 (self.food_prod_rate + amount) }
  | .primary .wood => .ok { self with wood_prod_rate := round_to_2 (self.wood_prod_rate + amount) }
  | .primary .stone => .ok { self with stone_prod_rate := round_to_2 (self.stone_prod_rate + amount) }
  | _ => .ok self

/-- Source `Resources::decrease_resource_production_rate`. -/
def Resources.decrease_resource_production_rate (self : Resources)
    (resource : Resource) (amount : ℚ) : Except IterationError Resources :=
  match resource with
  | .primary .food => .ok { self with food_prod_rate := round_to_2 (self.food_prod_rate - amount) }
  | .primary .wood => .ok { self with wood_prod_rate := round_to_2 (self.wood_prod_rate - amount) }
  | .primary .stone => .ok { self with stone_prod_rate := round_to_2 (self.stone_prod_rate - amount) }
  | _ => .ok self

/-- Source `Resources::increase_food_consumption`. -/
def Resources.increase_food_consumption (self : Resources) (amount : ℚ) :
    Except IterationError Resources :=
  .ok { self with food_cons_rate := round_to_2 (self.food_cons_rate + amount) }

/-- The cost loop inside the `Build` arm of `Resources::apply_action`. -/
def Resources.payCosts (self : Resources) :
    List (Resource × ℚ) → Except IterationError Resources
  | [] => .ok self
  | cost :: rest => do
    let r ← self.decrease cost.1 cost.2
    r.payCosts rest

/-- Source `Resources::apply_action`. -/
def Resources.apply_action (ext : Ext) (self : Resources) (action : Action)
    (ctx : Context) : Except IterationError (Resources × Context) :=
  match action with
  | .recruitCitizen => do
    let r ← self.decrease (.primary .food) 20
    let r2 ← r.increase_food_consumption 1
    .ok (r2, ctx)
  | .collect primary_resource => self.increase ext (.primary primary_resource) 1 ctx
  | .build building => do
    let resources ← self.payCosts building.costs
    match building.primary_resource_storage_increase with
    | some inc => do
      let r2 ← resources.increase_primary_resource_storage inc.1 inc.2
      .ok (r2, ctx)
    | none => .ok (resources, ctx)
  | .assignJob job => do
    let r ← self.increase_resource_production_rate job.get_resource_production
      job.get_production_rate
    .ok (r, ctx)
  | .dischargeJob job => do
    let r ← self.decrease_resource_production_rate job.get_resource_production
      job.get_production_rate
    .ok (r, ctx)
  | _ => .ok (self, ctx)

/-- Source `Resources::work`. -/
def Resources.work (ext : Ext) (self : Resources) (ctx : Context) :
    Except IterationError (Resources × Context) := do
  let food_inc := self.food_prod_rate * self.food_prod_rate_multiplier - self.food_cons_rate
  let wood_inc := self.wood_prod_rate * self.wood_prod_rate_multiplier
  let stone_inc := self.stone_prod_rate * self.stone_prod_rate_multiplier
  let s1 ← self.increase ext (.primary .food) food_inc ctx
  let s2 ← s1.1.increase ext (.primary .wood) wood_inc s1.2
  s2.1.increase ext (.primary .stone) stone_inc s2.2

/-- Source `Resources::hash`: `DefaultHasher` applied to the fields in the source's
write order (each `f64` written via its canonical byte encoding). -/
def Resources.hash (ext : Ext) (self : Resources) : ℕ :=
  ext.hashWrites [self.food, self.food_cons_rate, self.food_prod_rate,
    self.food_prod_rate_multiplier, self.max_food, self.wood,
    self.wood_prod_rate, self.wood_prod_rate_multiplier, self.max_wood,
    self.stone, self.stone_prod_rate, self.stone_prod_rate_multiplier,
    self.max_stone, self.skins, self.herbs, self.ore, self.leather,
    self.piety, self.metal, self.gold, self.corpses]

/-! ## Citizens ledger (src/game/citizens.rs)

The `u64` counters are modelled as `ℤ` so that absence of underflow is a
provable invariant rather than a typing artefact. -/

structure Citizens where
  idle : ℤ
  farmers : ℤ
  woodcutters : ℤ
  miners : ℤ
  max_population : ℤ
deriving DecidableEq

/-- Source `#[derive(Default)]` for `Citizens`: all counters zero. -/
def Citizens.default : Citizens where
  idle := 0
  farmers := 0
  woodcutters := 0
  miners := 0
  max_population := 0

/-- Source `Citizens::count`. -/
def Citizens.count (self : Citizens) : ℤ :=
  self.idle + self.farmers + self.woodcutters + self.miners

/-- Source `Citizens::apply_action` (the `&mut Context` argument is unused in the
source). -/
def Citizens.apply_action (self : Citizens) (action : Action) :
    Except IterationError Citizens :=
  match action with
  | .recruitCitizen =>
    if self.count < self.max_population then
      .ok { self with idle := self.idle + 1 }
    else
      .error .populationLimitReached
  | .assignJob job =>
    if 0 < self.idle then
      match job with
      | .farmer =>
        if 0 < self.idle then
          .ok { self with idle := self.idle - 1, farmers := self.farmers + 1 }
        else .ok self
      | .woodcutter =>
        if 0 < self.idle then
          .ok { self with idle := self.idle - 1, woodcutters := self.woodcutters + 1 }
        else .ok self
      | .miner =>
        if 0 < self.idle then
          .ok { self with idle := self.idle - 1, miners := self.miners + 1 }
        else .ok self
    else
      .error .notEnaughtIdleWorkers
  | .dischargeJob job =>
    match job with
    | .farmer =>
      if 0 < self.farmers then
        .ok { self with idle := self.idle + 1, farmers := self.farmers - 1 }
      else .error (.noWorkersInJob .farmer)
    | .woodcutter =>
      if 0 < self.woodcutters then
        .ok { self with idle := self.idle + 1, woodcutters := self.woodcutters - 1 }
      else .error (.noWorkersInJob .woodcutter)
    | .miner =>
      if 0 < self.miners then
        .ok { self with idle := self.idle + 1, miners := self.miners - 1 }
      else .error (.noWorkersInJob .miner)
  | .build building =>
    .ok { self with max_population := self.max_population + building.population_capacity_increase }
  | _ => .ok self

/-- Source `Citizens::hash`. -/
def Citizens.hash (ext : Ext) (self : Citizens) : ℕ :=
  ext.hashWrites [(self.idle : ℚ), (self.farmers : ℚ), (self.woodcutters : ℚ),
    (self.miners : ℚ), (self.max_population : ℚ)]

/-! ## Land ledger (src/game/land.rs) -/

structure Land where
  total_land : ℤ
  tents : ℤ
  wooden_huts : ℤ
  barns : ℤ
  wood_stockpiles : ℤ
  stone_stockpiles : ℤ
deriving DecidableEq

/-- Source `impl Default for Land`. -/
def Land.default : Land where
  total_land := 1000
  tents := 0
  wooden_huts := 0
  barns := 0
  wood_stockpiles := 0
  stone_stockpiles := 0

/-- Source `Land::land_use`. -/
def Land.land_use (self : Land) : ℤ :=
  self.tents + self.wooden_huts + self.barns + self.wood_stockpiles +
    self.stone_stockpiles

/-- Source `Land::free_land`. -/
def Land.free_land (self : Land) : ℤ :=
  self.total_land - self.land_use

/-- Source `Land::apply_action` (the `&mut Context` argument is unused in the
source). -/
def Land.apply_action (self : Land) (action : Action) :
    Except IterationError Land :=
  match action with
  | .build building =>
    if 0 < self.free_land then
      match building with
      | .tent => .ok { self with tents := self.tents + 1 }
      | .woodenHut => .ok { self with wooden_huts := self.wooden_huts + 1 }
      | .barn => .ok { self with barns := self.barns + 1 }
      | .woodStockpile => .ok { self with wood_stockpiles := self.wood_stockpiles + 1 }
      | .stoneStockpile => .ok { self with stone_stockpiles := self.stone_stockpiles + 1 }
    else
      .error .notEnaughtFreeLand
  | _ => .ok self

/-- Source `Land::hash`. -/
def Land.hash (ext : Ext) (self : Land) : ℕ :=
  ext.hashWrites [(self.total_land : ℚ), (self.tents : ℚ), (self.wooden_huts : ℚ),
    (self.barns : ℚ), (self.wood_stockpiles : ℚ), (self.stone_stockpiles : ℚ)]

/-! ## State engine (src/game/state.rs) -/

abbrev LogEntry : Type := Action × ℕ

structure State where
  seed : ℤ
  prev_hash : ℕ
  iterations : ℕ
  resources : Resources
  citizens : Citizens
  land : Land
  log : List LogEntry
  nonces : List ℕ
deriving DecidableEq

/-- Source `impl Default for State` combined with `State::new(seed)`: genesis. -/
def State.new (seed : ℤ) : State where
  seed := seed
  prev_hash := 0
  iterations := 0
  resources := Resources.default
  citizens := Citizens.default
  land := Land.default
  log := []
  nonces := [0]

/-- Source `State::get_rng`: a fresh `ChaChaRng` seeded from `(seed, prev_hash)`. -/
def State.get_rng (self : State) : Rng :=
  { base := { seed := self.seed, prev_hash := self.prev_hash }, consumed := 0 }

/-- Source `State::get_context`. -/
def State.get_context (self : State) : Context :=
  { rng := self.get_rng }

/-- Source `State::hash(nonce)`: `DefaultHasher` over seed, prev_hash, iterations,
nonce and the three ledger hashes, in the source's write order. -/
def State.hash (ext : Ext) (self : State) (nonce : ℕ) : ℕ :=
  ext.hashWrites [(self.seed : ℚ), (self.prev_hash : ℚ), (self.iterations : ℚ),
    (nonce : ℚ), (self.resources.hash ext : ℚ), (self.citizens.hash ext : ℚ),
    (self.land.hash ext : ℚ)]

/-- Source `State::prev_iteration_nonce`: `self.nonces[self.iterations]`.  The source
indexes a `Vec` (panicking when out of bounds); reachable states keep the
index in bounds (claim C10), so out-of-range reads are defaulted to 0. -/
def State.prev_iteration_nonce (self : State) : ℕ :=
  self.nonces.getD self.iterations 0

/-- One pass of the log-compaction loop body in `State::do_apply_action`:
fold the next old entry into the rebuilt log, merging it into the last entry
when the actions are equal (the source adds `1`, not the entry's count). -/
def compactStep (log : List LogEntry) (log_entry : LogEntry) : List LogEntry :=
  match log.getLast? with
  | some last =>
    if last.1 = log_entry.1 then
      log.dropLast ++ [(last.1, last.2 + 1)]
    else
      log ++ [log_entry]
  | none => [log_entry]

/-- The whole log-rebuild block of `State::do_apply_action`: re-fold
`old_log ++ [(action, 1)]` through the compaction loop. -/
def rebuildLog (old_log : List LogEntry) (action : Action) : List LogEntry :=
  (old_log ++ [(action, 1)]).foldl compactStep []

/-- Source `State::do_apply_action`: the transition without the commit step. -/
def State.do_apply_action (ext : Ext) (self : State) (action : Action) :
    Except IterationError State := do
  let ctx := self.get_context
  let worked ← self.resources.work ext ctx
  let acted ← worked.1.apply_action ext action worked.2
  let citizens ← self.citizens.apply_action action
  let land ← self.land.apply_action action
  .ok { self with
    prev_hash := self.hash ext self.prev_iteration_nonce,
    iterations := self.iterations + 1,
    resources := acted.1,
    citizens := citizens,
    land := land,
    log := rebuildLog self.log action }

/-- Source `usize::next_power_of_two`: the least power of two that is ≥ the input
(1 for inputs ≤ 1). -/
def next_power_of_two (n : ℕ) : ℕ :=
  if n ≤ 1 then 1 else 2 * next_power_of_two ((n + 1) / 2)
decreasing_by
  simp only [not_le] at *
  omega

/-- The exponent loop of `State::max_hash`: count trailing zero bits (the
source loop diverges on 0, which `next_power_of_two` never returns; the value
at 0 here is arbitrary). -/
def trailingZeroBits (n : ℕ) : ℕ :=
  if n % 2 = 1 then 0
  else if n = 0 then 0
  else 1 + trailingZeroBits (n / 2)
decreasing_by
  omega

/-- Source `State::max_hash` as a function of the iteration count:
`u64::MAX >> exponent` where `exponent` counts the trailing zero bits of
`iterations.next_power_of_two()`. -/
def maxHashOf (iterations : ℕ) : ℕ :=
  (2 ^ 64 - 1) >>> trailingZeroBits (next_power_of_two iterations)

/-- Source `State::max_hash`. -/
def State.max_hash (self : State) : ℕ :=
  maxHashOf self.iterations

/-- The nonce-search loop of `State::calculate_nonce`, made total with fuel:
`none` means the search did not finish within `fuel` further candidates. -/
def State.findNonceFrom (ext : Ext) (self : State) : ℕ → ℕ → Option ℕ
  | fuel, nonce =>
    if self.hash ext nonce ≤ self.max_hash then some nonce
    else
      match fuel with
      | 0 => none
      | fuel2 + 1 => self.findNonceFrom ext fuel2 (nonce + 1)

/-- Source `State::calculate_nonce`: search upward from 0. -/
def State.calculate_nonce (ext : Ext) (self : State) (fuel : ℕ) : Option ℕ :=
  self.findNonceFrom ext fuel 0

/-- Source `State::commit`: append the found nonce. -/
def State.commit (ext : Ext) (fuel : ℕ) (self : State) : Option State :=
  (self.calculate_nonce ext fuel).map fun nonce =>
    { self with nonces := self.nonces ++ [nonce] }

/-- Source `State::apply_action`: `do_apply_action` then `commit` (the inner
`Option` is the fuel bound on the nonce search). -/
def State.apply_action (ext : Ext) (fuel : ℕ) (self : State) (action : Action) :
    Except IterationError (Option State) :=
  (self.do_apply_action ext action).map (State.commit ext fuel)

/-- The driver pattern of `main`: clone the state, attempt the action, keep
the original state whenever the engine returns an error. -/
def State.applyActionOrKeep (ext : Ext) (fuel : ℕ) (self : State)
    (action : Action) : State :=
  match self.apply_action ext fuel action with
  | .ok (some next) => next
  | _ => self

/-- One pass of the inner loop body of `State::check`: a single
`do_apply_action`, wrapping failure in
`InvalidStateRecreation(state.iterations + 1, error)`. -/
def State.replayOne (ext : Ext) (action : Action) (st : State) :
    Except CheckError State :=
  match st.do_apply_action ext action with
  | .ok next => .ok next
  | .error e => .error (.invalidStateRecreation (st.iterations + 1) e)

/-- The inner `for _ in 0..log_entry.1` loop of `State::check`: replay one
action `count` times through `do_apply_action`, wrapping any failure in
`InvalidStateRecreation(state.iterations + 1, error)`. -/
def State.replaySteps (ext : Ext) (action : Action) :
    ℕ → State → Except CheckError State
  | 0, st => .ok st
  | count + 1, st =>
    match st.do_apply_action ext action with
    | .ok next => State.replaySteps ext action count next
    | .error e => .error (.invalidStateRecreation (st.iterations + 1) e)

/-- The outer loop of `State::check`: replay every log entry. -/
def State.replayLog (ext : Ext) : State → List LogEntry → Except CheckError State
  | st, [] => .ok st
  | st, log_entry :: rest => do
    let st2 ← State.replaySteps ext log_entry.1 log_entry.2 st
    State.replayLog ext st2 rest

/-- Source `State::check`: rebuild from a fresh genesis state carrying the original
`nonces`, then compare the two final hashes. -/
def State.check (ext : Ext) (self : State) : Except CheckError Unit :=
  match State.replayLog ext { State.new self.seed with nonces := self.nonces } self.log with
  | .error e => .error e
  | .ok st =>
    if self.hash ext self.prev_iteration_nonce = st.hash ext st.prev_iteration_nonce then
      .ok ()
    else
      .error .hashMismatch

/-- The states produced from genesis by sequences of successful
`apply_action` calls (`do_apply_action` succeeded and the nonce search of
`commit` terminated). -/
inductive Reach (ext : Ext) : State → Prop
  | genesis (seed : ℤ) : Reach ext (State.new seed)
  | step {s t u : State} {action : Action} (fuel : ℕ) :
      Reach ext s →
      s.do_apply_action ext action = .ok t →
      t.commit ext fuel = some u →
      Reach ext u

/-! ## Reachability predicates and claim-statement vocabulary -/

/-- The `Resources` ledgers reachable from the default ledger through the
exposed mutating operations (`work` and `apply_action`), over any action
sequence and any rng state. -/
inductive RResources (ext : Ext) : Resources → Prop
  | default : RResources ext Resources.default
  | work {r r2 : Resources} {ctx ctx2 : Context} :
      RResources ext r → r.work ext ctx = .ok (r2, ctx2) → RResources ext r2
  | action {r r2 : Resources} {a : Action} {ctx ctx2 : Context} :
      RResources ext r → r.apply_action ext a ctx = .ok (r2, ctx2) → RResources ext r2

/-- The `Citizens` ledgers reachable from the default ledger through
`apply_action`, over any action sequence. -/
inductive RCitizens : Citizens → Prop
  | default : RCitizens Citizens.default
  | step {c c2 : Citizens} {a : Action} :
      RCitizens c → c.apply_action a = .ok c2 → RCitizens c2

/-- A value already rounded to 2 decimal places. -/
@[reducible] def Rounded2 (q : ℚ) : Prop :=
  round_to_2 q = q

/-- The stored amount of a resource (statement vocabulary for the claims
about `Resources::decrease`). -/
def Resources.amountOf (r : Resources) : Resource → ℚ
  | .primary .food => r.food
  | .primary .wood => r.wood
  | .primary .stone => r.stone
  | .secondary .skins => r.skins
  | .secondary .herbs => r.herbs
  | .secondary .ore => r.ore
  | .tertiary .leather => r.leather
  | .tertiary .piety => r.piety
  | .tertiary .metal => r.metal
  | .special .gold => r.gold
  | .special .corpses => r.corpses

/-- Replace the stored amount of a single resource (statement vocabulary). -/
def Resources.setAmount (r : Resources) : Resource → ℚ → Resources
  | .primary .food, q => { r with food := q }
  | .primary .wood, q => { r with wood := q }
  | .primary .stone, q => { r with stone := q }
  | .secondary .skins, q => { r with skins := q }
  | .secondary .herbs, q => { r with herbs := q }
  | .secondary .ore, q => { r with ore := q }
  | .tertiary .leather, q => { r with leather := q }
  | .tertiary .piety, q => { r with piety := q }
  | .tertiary .metal, q => { r with metal := q }
  | .special .gold, q => { r with gold := q }
  | .special .corpses, q => { r with corpses := q }

/-- The invariant that actually holds on reachable `Resources` ledgers
(amended claim C3): every amount and every capacity is fixed under 2-decimal
rounding; food and wood are bounded by their own capacities while stone is
bounded by the wood capacity (the source clamps stone against `max_wood`);
secondary, tertiary and special amounts are non-negative. -/
structure ResourcesInv (r : Resources) : Prop where
  food_rounded : Rounded2 r.food
  wood_rounded : Rounded2 r.wood
  stone_rounded : Rounded2 r.stone
  skins_rounded : Rounded2 r.skins
  herbs_rounded : Rounded2 r.herbs
  ore_rounded : Rounded2 r.ore
  leather_rounded : Rounded2 r.leather
  piety_rounded : Rounded2 r.piety
  metal_rounded : Rounded2 r.metal
  gold_rounded : Rounded2 r.gold
  corpses_rounded : Rounded2 r.corpses
  max_food_rounded : Rounded2 r.max_food
  max_wood_rounded : Rounded2 r.max_wood
  max_stone_rounded : Rounded2 r.max_stone
  food_le : r.food ≤ r.max_food
  wood_le : r.wood ≤ r.max_wood
  stone_le : r.stone ≤ r.max_wood
  skins_nonneg : 0 ≤ r.skins
  herbs_nonneg : 0 ≤ r.herbs
  ore_nonneg : 0 ≤ r.ore
  leather_nonneg : 0 ≤ r.leather
  piety_nonneg : 0 ≤ r.piety
  metal_nonneg : 0 ≤ r.metal
  gold_nonneg : 0 ≤ r.gold
  corpses_nonneg : 0 ≤ r.corpses

/-! ## Concrete instantiations used by witnesses and counterexamples -/

/-- A concrete instantiation of the external primitives: every Bernoulli
draw fails, every hash is 0. -/
def ext0 : Ext where
  bern := fun _ _ => false
  hashWrites := fun _ => 0

/-- A concrete rng context. -/
def ctx0 : Context where
  rng := { base := { seed := 0, prev_hash := 0 }, consumed := 0 }

/-- The ledger after `apply_action(DischargeJob(Farmer))` on the default
ledger: the food production rate is now −1.2. -/
def cexMid : Resources :=
  { Resources.default with food_prod_rate := mkRat (-6) 5 }

/-- The ledger after a further `work`: the negative net food increment is
added through `increase` and clamping against the capacity does not stop it,
so the stored food amount is −1.2. -/
def cexLedger : Resources :=
  { Resources.default with food_prod_rate := mkRat (-6) 5, food := mkRat (-6) 5 }

/-- A ledger whose wood capacity (5) is below its stone capacity (200):
`increase` on Stone clamps against the wood capacity. -/
def stoneBugLedger : Resources :=
  { Resources.default with max_wood := 5 }

/-! # Inversion helpers -/

theorem do_apply_action_ok_shape {ext : Ext} {s t : State} {a : Action}
    (h : State.do_apply_action ext s a = .ok t) :
    ∃ rp cz ld, t = { s with
      prev_hash := s.hash ext s.prev_iteration_nonce,
      iterations := s.iterations + 1,
      resources := rp, citizens := cz, land := ld,
      log := rebuildLog s.log a } := by
  simp only [State.do_apply_action, bind, Except.bind] at h
  cases hw : s.resources.work ext s.get_context with
  | error e => simp [hw] at h
  | ok w =>
    simp only [hw] at h
    cases ha : w.1.apply_action ext a w.2 with
    | error e => simp [ha] at h
    | ok w2 =>
      simp only [ha] at h
      cases hcz : s.citizens.apply_action a with
      | error e => simp [hcz] at h
      | ok cz =>
        simp only [hcz] at h
        cases hld : s.land.apply_action a with
        | error e => simp [hld] at h
        | ok ld =>
          simp only [hld] at h
          cases h
          exact ⟨w2.1, cz, ld, rfl⟩

theorem commit_some_shape {ext : Ext} {fuel : ℕ} {t u : State}
    (h : t.commit ext fuel = some u) :
    ∃ n, t.calculate_nonce ext fuel = some n ∧
      u = { t with nonces := t.nonces ++ [n] } := by
  rw [State.commit] at h
  cases hn : t.calculate_nonce ext fuel with
  | none => rw [hn] at h; cases h
  | some n =>
    rw [hn, Option.map_some'] at h
    injection h with h2
    exact ⟨n, rfl, h2.symm⟩

/-! # Claim theorems: the easy group -/

/-- Claim C4: for every resource and amount, `decrease` fails with
`NotEnoughResource(resource)` exactly when the truncation of the current
amount minus the truncation of the requested amount is negative, and
otherwise stores the difference rounded to 2 decimals. -/
theorem c4_decrease_floor_check (r : Resources) (res : Resource) (a : ℚ) :
    r.decrease res a =
      if 0 ≤ truncInt (r.amountOf res) - truncInt a then
        .ok (r.setAmount res (round_to_2 (r.amountOf res - a)))
      else
        .error (.notEnaughtResource res) := by
  rcases res with p | sc | t | sp
  · cases p <;> rfl
  · cases sc <;> rfl
  · cases t <;> rfl
  · cases sp <;> rfl

/-- Claim C2 (code bug): on the ledger with wood capacity 5 and stone
capacity 200, increasing Stone by 10 stores 5 — the source clamps the stone
amount against `max_wood` (resources.rs line 120) instead of `max_stone`,
while the claim requires `min(0 + 10, 200) = 10`. -/
theorem c2_stone_clamped_against_wood_capacity :
    stoneBugLedger.increase ext0 (.primary .stone) 10 ctx0 =
      .ok ({ stoneBugLedger with stone := 5 },
           { ctx0 with rng := { ctx0.rng with consumed := 10 } }) ∧
    stoneBugLedger.max_stone = 200 ∧
    round_to_2 (min (stoneBugLedger.stone + 10) stoneBugLedger.max_stone) = 10 := by
  refine ⟨by decide, by decide, by decide⟩

/-- Claim C5: whenever `apply_action` returns an `IterationError`, the
driver-observable state (the pre-transition state it retains) is exactly the
input state: no ledger, log, iteration count or nonce effect survives an
error, for every error case. -/
theorem c5_error_all_or_nothing (ext : Ext) (fuel : ℕ) (s : State) (a : Action)
    (e : IterationError) (h : s.apply_action ext fuel a = .error e) :
    s.applyActionOrKeep ext fuel a = s ∧
    (s.applyActionOrKeep ext fuel a).resources = s.resources ∧
    (s.applyActionOrKeep ext fuel a).citizens = s.citizens ∧
    (s.applyActionOrKeep ext fuel a).land = s.land ∧
    (s.applyActionOrKeep ext fuel a).log = s.log ∧
    (s.applyActionOrKeep ext fuel a).iterations = s.iterations ∧
    (s.applyActionOrKeep ext fuel a).nonces = s.nonces := by
  have hk : s.applyActionOrKeep ext fuel a = s := by
    rw [State.applyActionOrKeep, h]
  exact ⟨hk, by rw [hk], by rw [hk], by rw [hk], by rw [hk], by rw [hk], by rw [hk]⟩

/-- Witness for C5: at genesis, `RecruitCitizen` fails (no food) and the
driver keeps the genesis state unchanged. -/
theorem c5_witness :
    (State.new 0).apply_action ext0 0 .recruitCitizen =
      .error (.notEnaughtResource (.primary .food)) ∧
    (State.new 0).applyActionOrKeep ext0 0 .recruitCitizen = State.new 0 :=
  ⟨by decide,
   (c5_error_all_or_nothing ext0 0 (State.new 0) .recruitCitizen
     (.notEnaughtResource (.primary .food)) (by decide)).1⟩

theorem reach_nonces_len {ext : Ext} {s : State} (h : Reach ext s) :
    s.nonces.length = s.iterations + 1 := by
  induction h with
  | genesis seed => rfl
  | step fuel hs hdo hc ih =>
    obtain ⟨rp, cz, ld, ht⟩ := do_apply_action_ok_shape hdo
    obtain ⟨n, hn, hu⟩ := commit_some_shape hc
    subst hu
    subst ht
    simp only [List.length_append, List.length_cons, List.length_nil]
    simpa using ih

/-- Claim C10: every state reachable from genesis by successful
`apply_action` calls has `nonces.len() = iterations + 1`, so the index
`nonces[iterations]` used by `prev_iteration_nonce` is in bounds. -/
theorem c10_nonces_length (ext : Ext) (s : State) (h : Reach ext s) :
    s.nonces.length = s.iterations + 1 ∧ s.iterations < s.nonces.length := by
  have hlen := reach_nonces_len h
  exact ⟨hlen, by omega⟩

/-- Witness for C10: the genesis state. -/
theorem c10_witness :
    (State.new 7).nonces.length = (State.new 7).iterations + 1 ∧
    (State.new 7).iterations < (State.new 7).nonces.length :=
  c10_nonces_length ext0 (State.new 7) (Reach.genesis 7)

end Cliciv

namespace Cliciv

/-! # Rounding and truncation lemmas -/

theorem ratFloor_eq_floor (q : ℚ) : ratFloor q = ⌊q⌋ :=
  Rat.floor_def.symm

theorem roundHalfAway_eq (q : ℚ) :
    roundHalfAway q = if 0 ≤ q then ⌊q + 1/2⌋ else -⌊-q + 1/2⌋ := by
  rw [roundHalfAway, ratFloor_eq_floor, ratFloor_eq_floor]

theorem roundHalfAway_intCast (z : ℤ) : roundHalfAway (z : ℚ) = z := by
  rw [roundHalfAway_eq]
  by_cases h : (0:ℚ) ≤ (z:ℚ)
  · rw [if_pos h]
    rw [Int.floor_int_add]
    norm_num
  · rw [if_neg h]
    rw [show (-(z:ℚ) + 1/2) = ((-z:ℤ):ℚ) + (1/2 : ℚ) by push_cast; ring]
    rw [Int.floor_int_add]
    norm_num

theorem roundHalfAway_mono {p q : ℚ} (h : p ≤ q) :
    roundHalfAway p ≤ roundHalfAway q := by
  rw [roundHalfAway_eq, roundHalfAway_eq]
  by_cases hp : 0 ≤ p
  · rw [if_pos hp, if_pos (le_trans hp h)]
    exact Int.floor_le_floor (by linarith)
  · rw [if_neg hp]
    by_cases hq : 0 ≤ q
    · rw [if_pos hq]
      have h1 : -⌊-p + 1/2⌋ ≤ 0 := by
        have : (0:ℚ) ≤ -p + 1/2 := by push_neg at hp; linarith
        have := Int.le_floor.mpr (by linarith : ((0:ℤ):ℚ) ≤ -p + 1/2)
        omega
      have h2 : (0:ℤ) ≤ ⌊q + 1/2⌋ :=
        Int.le_floor.mpr (by push_cast; linarith)
      omega
    · rw [if_neg hq]
      have := Int.floor_le_floor (by linarith : -q + 1/2 ≤ -p + 1/2)
      omega

theorem round_to_2_mono {p q : ℚ} (h : p ≤ q) : round_to_2 p ≤ round_to_2 q := by
  rw [round_to_2, round_to_2]
  have := roundHalfAway_mono (by linarith : p * 100 ≤ q * 100)
  have hcast : ((roundHalfAway (p * 100) : ℚ)) ≤ (roundHalfAway (q * 100) : ℚ) :=
    Int.cast_le.mpr this
  linarith

theorem round_to_2_of_mul_int {q : ℚ} {z : ℤ} (h : q * 100 = z) : round_to_2 q = q := by
  rw [round_to_2, h, roundHalfAway_intCast]
  exact ((eq_div_iff (by norm_num : (100:ℚ) ≠ 0)).mpr h).symm

theorem rounded2_iff {q : ℚ} : Rounded2 q ↔ ∃ z : ℤ, q * 100 = z := by
  constructor
  · intro hq
    refine ⟨roundHalfAway (q * 100), ?_⟩
    rw [Rounded2, round_to_2] at hq
    field_simp at hq
    linarith
  · rintro ⟨z, hz⟩
    exact round_to_2_of_mul_int hz

theorem rounded2_round_to_2 (q : ℚ) : Rounded2 (round_to_2 q) := by
  rw [rounded2_iff]
  exact ⟨roundHalfAway (q * 100), by rw [round_to_2]; field_simp⟩

theorem Rounded2.add {p q : ℚ} (hp : Rounded2 p) (hq : Rounded2 q) :
    Rounded2 (p + q) := by
  rw [rounded2_iff] at hp hq ⊢
  obtain ⟨a, ha⟩ := hp
  obtain ⟨b, hb⟩ := hq
  exact ⟨a + b, by push_cast; linarith⟩

theorem Rounded2.sub {p q : ℚ} (hp : Rounded2 p) (hq : Rounded2 q) :
    Rounded2 (p - q) := by
  rw [rounded2_iff] at hp hq ⊢
  obtain ⟨a, ha⟩ := hp
  obtain ⟨b, hb⟩ := hq
  exact ⟨a - b, by push_cast; linarith⟩

theorem Rounded2.intCast (z : ℤ) : Rounded2 (z : ℚ) :=
  rounded2_iff.mpr ⟨z * 100, by push_cast; ring⟩

theorem Rounded2.natCast (n : ℕ) : Rounded2 (n : ℚ) :=
  rounded2_iff.mpr ⟨n * 100, by push_cast; ring⟩

theorem round_to_2_nonneg {q : ℚ} (h : 0 ≤ q) : 0 ≤ round_to_2 q := by
  have h0 : round_to_2 0 = 0 := by decide
  have := round_to_2_mono h
  rw [h0] at this
  exact this

theorem round_to_2_eq_self {q : ℚ} (h : Rounded2 q) : round_to_2 q = q := h

theorem truncInt_intCast (z : ℤ) : truncInt (z : ℚ) = z := by
  rw [truncInt, Rat.intCast_num, Rat.intCast_den]
  exact Int.tdiv_one z

theorem truncInt_eq_floor_of_nonneg {q : ℚ} (h : 0 ≤ q) : truncInt q = ⌊q⌋ := by
  rw [truncInt, Int.tdiv_eq_ediv (Rat.num_nonneg.mpr h) (by positivity), ← ratFloor_eq_floor, ratFloor]

theorem truncInt_cast_le {q : ℚ} (h : 0 ≤ q) : (truncInt q : ℚ) ≤ q := by
  rw [truncInt_eq_floor_of_nonneg h]
  exact Int.floor_le q

theorem truncInt_nonpos {q : ℚ} (h : q < 0) : truncInt q ≤ 0 := by
  rw [truncInt]
  have hnum : q.num < 0 := Rat.num_neg.mpr h
  have h2 : 0 ≤ Int.tdiv (-q.num) q.den :=
    Int.tdiv_nonneg (by omega) (by positivity)
  rw [Int.neg_tdiv] at h2
  omega

/-- Claim C9: every Citizens ledger reachable from the default ledger keeps
`idle + farmers + woodcutters + miners ≤ max_population` with no counter
negative, and `RecruitCitizen` succeeds exactly while
`count() < max_population`, failing with `PopulationLimitReached` otherwise. -/
theorem c9_citizens_invariant :
    (∀ c : Citizens, RCitizens c →
      0 ≤ c.idle ∧ 0 ≤ c.farmers ∧ 0 ≤ c.woodcutters ∧ 0 ≤ c.miners ∧
        c.count ≤ c.max_population) ∧
    (∀ c : Citizens,
      c.apply_action .recruitCitizen =
        if c.count < c.max_population then .ok { c with idle := c.idle + 1 }
        else .error .populationLimitReached) := by
  constructor
  · intro c hc
    induction hc with
    | default => exact ⟨le_refl 0, le_refl 0, le_refl 0, le_refl 0, le_refl 0⟩
    | step hprev hstep ih =>
      rename_i c c2 a
      obtain ⟨h1, h2, h3, h4, h5⟩ := ih
      rw [Citizens.count] at h5
      cases a with
      | idle =>
        simp only [Citizens.apply_action] at hstep
        cases hstep
        exact ⟨h1, h2, h3, h4, by rw [Citizens.count]; omega⟩
      | collect p =>
        simp only [Citizens.apply_action] at hstep
        cases hstep
        exact ⟨h1, h2, h3, h4, by rw [Citizens.count]; omega⟩
      | recruitCitizen =>
        simp only [Citizens.apply_action, Citizens.count] at hstep
        split at hstep
        · cases hstep
          refine ⟨?_, ?_, ?_, ?_, ?_⟩ <;> simp [Citizens.count] <;> omega
        · cases hstep
      | assignJob j =>
        cases j <;> simp only [Citizens.apply_action] at hstep <;> split at hstep <;>
          cases hstep <;>
          (refine ⟨?_, ?_, ?_, ?_, ?_⟩ <;> simp [Citizens.count] <;> omega)
      | dischargeJob j =>
        cases j <;> simp only [Citizens.apply_action] at hstep <;> split at hstep <;>
          cases hstep <;>
          (refine ⟨?_, ?_, ?_, ?_, ?_⟩ <;> simp [Citizens.count] <;> omega)
      | build b =>
        simp only [Citizens.apply_action] at hstep
        cases hstep
        have hb : 0 ≤ b.population_capacity_increase := by
          cases b <;> decide
        refine ⟨h1, h2, h3, h4, ?_⟩
        simp [Citizens.count]
        omega
  · intro c
    rfl

theorem c9_witness :
    Citizens.default.count ≤ Citizens.default.max_population ∧
    Citizens.default.apply_action .recruitCitizen =
      .error .populationLimitReached := by
  constructor
  · exact (c9_citizens_invariant.1 Citizens.default RCitizens.default).2.2.2.2
  · rw [c9_citizens_invariant.2 Citizens.default]
    decide

/-! # The max_hash difficulty schedule (claim C7) -/

theorem next_power_of_two_pos (n : ℕ) : 0 < next_power_of_two n := by
  induction n using Nat.strong_induction_on with
  | _ n ih =>
    rw [next_power_of_two]
    split
    · exact one_pos
    · rename_i h
      have := ih ((n + 1) / 2) (by omega)
      omega

theorem next_power_of_two_isPow (n : ℕ) : ∃ k, next_power_of_two n = 2 ^ k := by
  induction n using Nat.strong_induction_on with
  | _ n ih =>
    rw [next_power_of_two]
    split
    · exact ⟨0, rfl⟩
    · rename_i h
      obtain ⟨k, hk⟩ := ih ((n + 1) / 2) (by omega)
      exact ⟨k + 1, by rw [hk, pow_succ]; ring⟩

theorem le_next_power_of_two (n : ℕ) : n ≤ next_power_of_two n := by
  induction n using Nat.strong_induction_on with
  | _ n ih =>
    rw [next_power_of_two]
    split
    · omega
    · rename_i h
      have := ih ((n + 1) / 2) (by omega)
      omega

theorem next_power_of_two_le {n k : ℕ} (h : n ≤ 2 ^ k) :
    next_power_of_two n ≤ 2 ^ k := by
  induction n using Nat.strong_induction_on generalizing k with
  | _ n ih =>
    rw [next_power_of_two]
    split
    · exact Nat.one_le_two_pow
    · rename_i hn
      have hk : 1 ≤ k := by
        by_contra hk0
        interval_cases k
        omega
      have hsplit : 2 ^ k = 2 * 2 ^ (k - 1) := by
        rw [← pow_succ']
        congr 1
        omega
      have hh : (n + 1) / 2 ≤ 2 ^ (k - 1) := by omega
      have := ih ((n + 1) / 2) (by omega) hh
      omega

theorem trailingZeroBits_pow (k : ℕ) : trailingZeroBits (2 ^ k) = k := by
  induction k with
  | zero => rw [trailingZeroBits]; norm_num
  | succ k ih =>
    rw [trailingZeroBits]
    have h2 : 2 ^ (k + 1) = 2 * 2 ^ k := by rw [pow_succ]; ring
    have hmod : 2 ^ (k + 1) % 2 = 0 := by omega
    have hne : ¬ 2 ^ (k + 1) = 0 := by positivity
    rw [if_neg (by omega), if_neg hne]
    have hdiv : 2 ^ (k + 1) / 2 = 2 ^ k := by omega
    rw [hdiv, ih]
    omega

theorem maxHashOf_eq_div (n : ℕ) :
    maxHashOf n = (2 ^ 64 - 1) / 2 ^ trailingZeroBits (next_power_of_two n) := by
  rw [maxHashOf, Nat.shiftRight_eq_div_pow]

theorem next_power_of_two_mono {n m : ℕ} (h : n ≤ m) :
    next_power_of_two n ≤ next_power_of_two m := by
  obtain ⟨k, hk⟩ := next_power_of_two_isPow m
  have : n ≤ 2 ^ k := le_trans h (hk ▸ le_next_power_of_two m)
  rw [hk]
  exact next_power_of_two_le this

/-- Claim C7: `max_hash` is `u64::MAX` shifted right by the number of
trailing zero bits of `next_power_of_two(iterations)`; it is non-increasing
in the iteration count and halves exactly at successive powers of two. -/
theorem c7_max_hash_monotone :
    (∀ s : State,
      s.max_hash = (2 ^ 64 - 1) >>> trailingZeroBits (next_power_of_two s.iterations)) ∧
    (∀ n m : ℕ, n ≤ m → maxHashOf m ≤ maxHashOf n) ∧
    (∀ k : ℕ, maxHashOf (2 ^ k) = (2 ^ 64 - 1) >>> k ∧
      maxHashOf (2 ^ k + 1) = maxHashOf (2 ^ k) / 2) := by
  refine ⟨fun s => rfl, ?_, ?_⟩
  · intro n m h
    obtain ⟨j, hj⟩ := next_power_of_two_isPow n
    obtain ⟨k, hk⟩ := next_power_of_two_isPow m
    have hnm : (2:ℕ) ^ j ≤ 2 ^ k := by
      rw [← hj, ← hk]
      exact next_power_of_two_mono h
    have hjk : j ≤ k := (Nat.pow_le_pow_iff_right (by omega)).mp hnm
    rw [maxHashOf_eq_div, maxHashOf_eq_div, hj, hk, trailingZeroBits_pow,
      trailingZeroBits_pow]
    exact Nat.div_le_div_left (Nat.pow_le_pow_right (by omega) hjk) (by positivity)
  · intro k
    have hpow : next_power_of_two (2 ^ k) = 2 ^ k := by
      refine le_antisymm (next_power_of_two_le (le_refl _)) (le_next_power_of_two _)
    have hpow1 : next_power_of_two (2 ^ k + 1) = 2 ^ (k + 1) := by
      refine le_antisymm (next_power_of_two_le ?_) ?_
      · have : (1:ℕ) ≤ 2 ^ k := Nat.one_le_two_pow
        rw [pow_succ]
        omega
      · obtain ⟨j, hj⟩ := next_power_of_two_isPow (2 ^ k + 1)
        have h1 : 2 ^ k + 1 ≤ 2 ^ j := hj ▸ le_next_power_of_two _
        have hkj : k < j := by
          by_contra hjk
          push_neg at hjk
          have h2 : (2:ℕ) ^ j ≤ 2 ^ k := Nat.pow_le_pow_right (by omega) hjk
          omega
        rw [hj]
        exact Nat.pow_le_pow_right (by omega) hkj
    constructor
    · rw [maxHashOf, hpow, trailingZeroBits_pow]
    · rw [maxHashOf, maxHashOf, hpow, hpow1, trailingZeroBits_pow,
        trailingZeroBits_pow, Nat.shiftRight_succ]

/-- Witness for C7: the difficulty at 5 iterations is at most that at 3. -/
theorem c7_witness : 3 ≤ 5 ∧ maxHashOf 5 ≤ maxHashOf 3 :=
  ⟨by decide, c7_max_hash_monotone.2.1 3 5 (by decide)⟩

/-! # The nonce search (claim C6) -/

theorem findNonceFrom_sound (ext : Ext) (s : State) :
    ∀ fuel k n, s.findNonceFrom ext fuel k = some n →
      k ≤ n ∧ s.hash ext n ≤ s.max_hash ∧
        ∀ m, k ≤ m → m < n → s.max_hash < s.hash ext m := by
  intro fuel
  induction fuel with
  | zero =>
    intro k n h
    rw [State.findNonceFrom] at h
    split at h
    · cases h
      exact ⟨le_refl _, by assumption,
        fun m h1 h2 => absurd (lt_of_le_of_lt h1 h2) (lt_irrefl _)⟩
    · cases h
  | succ fuel2 ih =>
    intro k n h
    rw [State.findNonceFrom] at h
    split at h
    · cases h
      exact ⟨le_refl _, by assumption,
        fun m h1 h2 => absurd (lt_of_le_of_lt h1 h2) (lt_irrefl _)⟩
    · rename_i hgt
      push_neg at hgt
      obtain ⟨h1, h2, h3⟩ := ih (k + 1) n h
      refine ⟨by omega, h2, ?_⟩
      intro m hm1 hm2
      rcases Nat.eq_or_lt_of_le hm1 with hme | hml
      · rw [← hme]
        exact hgt
      · exact h3 m hml hm2

theorem findNonceFrom_complete (ext : Ext) (s : State) :
    ∀ j k, s.hash ext (k + j) ≤ s.max_hash →
      ∃ n, s.findNonceFrom ext j k = some n := by
  intro j
  induction j with
  | zero =>
    intro k h
    rw [State.findNonceFrom]
    rw [if_pos (by simpa using h)]
    exact ⟨k, rfl⟩
  | succ j2 ih =>
    intro k h
    rw [State.findNonceFrom]
    by_cases hk : s.hash ext k ≤ s.max_hash
    · rw [if_pos hk]
      exact ⟨k, rfl⟩
    · rw [if_neg hk]
      exact ih (k + 1) (by rw [show k + 1 + j2 = k + (j2 + 1) by omega]; exact h)

/-- Claim C6: whenever some nonce satisfies `hash(state, n) ≤ max_hash`,
the nonce search terminates (for enough fuel), `commit` appends its result,
and that result is the least satisfying nonce: it satisfies the bound and
every smaller nonce exceeds it. -/
theorem c6_commit_least_nonce (ext : Ext) (s : State)
    (h : ∃ n, s.hash ext n ≤ s.max_hash) :
    ∃ fuel n, s.calculate_nonce ext fuel = some n ∧
      s.commit ext fuel = some { s with nonces := s.nonces ++ [n] } ∧
      s.hash ext n ≤ s.max_hash ∧
      ∀ m < n, s.max_hash < s.hash ext m := by
  obtain ⟨n0, hn0⟩ := h
  obtain ⟨n, hn⟩ := findNonceFrom_complete ext s n0 0 (by simpa using hn0)
  have hs := findNonceFrom_sound ext s n0 0 n hn
  refine ⟨n0, n, hn, ?_, hs.2.1, fun m hm => hs.2.2 m (Nat.zero_le m) hm⟩
  rw [State.commit, State.calculate_nonce, hn, Option.map_some']

/-- Witness for C6: with the trivial hasher every hash is 0, the bound holds
at nonce 0, and the search returns the least nonce. -/
theorem c6_witness :
    (∃ n, (State.new 0).hash ext0 n ≤ (State.new 0).max_hash) ∧
    ∃ fuel n, (State.new 0).calculate_nonce ext0 fuel = some n ∧
      (State.new 0).commit ext0 fuel =
        some { State.new 0 with nonces := (State.new 0).nonces ++ [n] } ∧
      (State.new 0).hash ext0 n ≤ (State.new 0).max_hash ∧
      ∀ m < n, (State.new 0).max_hash < (State.new 0).hash ext0 m :=
  ⟨⟨0, Nat.zero_le _⟩, c6_commit_least_nonce ext0 (State.new 0) ⟨0, Nat.zero_le _⟩⟩

/-- Helper restating `Resources::decrease` as a single conditional on the
truncated amounts (shared by the invariant proofs). -/
theorem decrease_spec (r : Resources) (res : Resource) (a : ℚ) :
    r.decrease res a =
      if 0 ≤ truncInt (r.amountOf res) - truncInt a then
        .ok (r.setAmount res (round_to_2 (r.amountOf res - a)))
      else
        .error (.notEnaughtResource res) := by
  rcases res with p | sc | t | sp
  · cases p <;> rfl
  · cases sc <;> rfl
  · cases t <;> rfl
  · cases sp <;> rfl

/-! # The Resources invariant (claim C3) -/

theorem truncInt_natCast (n : ℕ) : truncInt ((n : ℚ)) = n := by
  have : ((n : ℚ)) = ((n : ℤ) : ℚ) := by push_cast; rfl
  rw [this, truncInt_intCast]

theorem natCast_le_of_trunc (x : ℚ) (n : ℕ) (hx : 0 ≤ x)
    (h : (n : ℤ) ≤ truncInt x) : (n : ℚ) ≤ x := by
  rw [truncInt_eq_floor_of_nonneg hx] at h
  calc (n : ℚ) = ((n : ℤ) : ℚ) := by push_cast; rfl
    _ ≤ (⌊x⌋ : ℚ) := Int.cast_le.mpr h
    _ ≤ x := Int.floor_le x

theorem round_min_le {x cap : ℚ} (hcap : Rounded2 cap) :
    round_to_2 (min x cap) ≤ cap := by
  have h := round_to_2_mono (min_le_right x cap)
  rw [hcap] at h
  exact h

theorem round_sub_le {x : ℚ} {n : ℕ} (hx : Rounded2 x) :
    round_to_2 (x - n) ≤ x := by
  have hn : (0:ℚ) ≤ n := Nat.cast_nonneg n
  have h := round_to_2_mono (by linarith : x - n ≤ x)
  rw [hx] at h
  exact h

theorem inv_update_rates {r : Resources} (hr : ResourcesInv r)
    (fcr fpr wpr spr : ℚ) :
    ResourcesInv { r with food_cons_rate := fcr, food_prod_rate := fpr,
                          wood_prod_rate := wpr, stone_prod_rate := spr } :=
  ⟨hr.food_rounded, hr.wood_rounded, hr.stone_rounded, hr.skins_rounded,
   hr.herbs_rounded, hr.ore_rounded, hr.leather_rounded, hr.piety_rounded,
   hr.metal_rounded, hr.gold_rounded, hr.corpses_rounded, hr.max_food_rounded,
   hr.max_wood_rounded, hr.max_stone_rounded, hr.food_le, hr.wood_le,
   hr.stone_le, hr.skins_nonneg, hr.herbs_nonneg, hr.ore_nonneg,
   hr.leather_nonneg, hr.piety_nonneg, hr.metal_nonneg, hr.gold_nonneg,
   hr.corpses_nonneg⟩

theorem increase_primary_inv {ext : Ext} {r r2 : Resources}
    {res : PrimaryResource} {amt : ℚ} {ctx ctx2 : Context}
    (hr : ResourcesInv r)
    (h : r.increase ext (.primary res) amt ctx = .ok (r2, ctx2)) :
    ResourcesInv r2 := by
  cases res with
  | food =>
    simp only [Resources.increase] at h
    injection h with hp
    injection hp with h1 h2
    subst h1
    exact ⟨rounded2_round_to_2 _, hr.wood_rounded, hr.stone_rounded,
      rounded2_round_to_2 _, hr.herbs_rounded, hr.ore_rounded,
      hr.leather_rounded, hr.piety_rounded, hr.metal_rounded, hr.gold_rounded,
      hr.corpses_rounded, hr.max_food_rounded, hr.max_wood_rounded,
      hr.max_stone_rounded, round_min_le hr.max_food_rounded, hr.wood_le,
      hr.stone_le,
      round_to_2_nonneg (add_nonneg hr.skins_nonneg (Nat.cast_nonneg _)),
      hr.herbs_nonneg, hr.ore_nonneg, hr.leather_nonneg, hr.piety_nonneg,
      hr.metal_nonneg, hr.gold_nonneg, hr.corpses_nonneg⟩
  | wood =>
    simp only [Resources.increase] at h
    injection h with hp
    injection hp with h1 h2
    subst h1
    exact ⟨hr.food_rounded, rounded2_round_to_2 _, hr.stone_rounded,
      hr.skins_rounded, rounded2_round_to_2 _, hr.ore_rounded,
      hr.leather_rounded, hr.piety_rounded, hr.metal_rounded, hr.gold_rounded,
      hr.corpses_rounded, hr.max_food_rounded, hr.max_wood_rounded,
      hr.max_stone_rounded, hr.food_le, round_min_le hr.max_wood_rounded,
      hr.stone_le, hr.skins_nonneg,
      round_to_2_nonneg (add_nonneg hr.herbs_nonneg (Nat.cast_nonneg _)),
      hr.ore_nonneg, hr.leather_nonneg, hr.piety_nonneg, hr.metal_nonneg,
      hr.gold_nonneg, hr.corpses_nonneg⟩
  | stone =>
    simp only [Resources.increase] at h
    injection h with hp
    injection hp with h1 h2
    subst h1
    exact ⟨hr.food_rounded, hr.wood_rounded, rounded2_round_to_2 _,
      hr.skins_rounded, hr.herbs_rounded, rounded2_round_to_2 _,
      hr.leather_rounded, hr.piety_rounded, hr.metal_rounded, hr.gold_rounded,
      hr.corpses_rounded, hr.max_food_rounded, hr.max_wood_rounded,
      hr.max_stone_rounded, hr.food_le, hr.wood_le,
      round_min_le hr.max_wood_rounded, hr.skins_nonneg, hr.herbs_nonneg,
      round_to_2_nonneg (add_nonneg hr.ore_nonneg (Nat.cast_nonneg _)),
      hr.leather_nonneg, hr.piety_nonneg, hr.metal_nonneg, hr.gold_nonneg,
      hr.corpses_nonneg⟩

theorem work_inv {ext : Ext} {r r2 : Resources} {ctx ctx2 : Context}
    (hr : ResourcesInv r) (h : r.work ext ctx = .ok (r2, ctx2)) :
    ResourcesInv r2 := by
  simp only [Resources.work, bind, Except.bind] at h
  cases h1 : r.increase ext (.primary .food)
      (r.food_prod_rate * r.food_prod_rate_multiplier - r.food_cons_rate) ctx with
  | error e => simp [h1] at h
  | ok s1 =>
    simp only [h1] at h
    cases h2 : s1.1.increase ext (.primary .wood)
        (r.wood_prod_rate * r.wood_prod_rate_multiplier) s1.2 with
    | error e => simp [h2] at h
    | ok s2 =>
      simp only [h2] at h
      exact increase_primary_inv
        (increase_primary_inv (increase_primary_inv hr h1) h2) h

theorem decrease_nat_inv {r r2 : Resources} {res : Resource} {a : ℚ}
    (hr : ResourcesInv r) (ha : ∃ n : ℕ, a = n)
    (h : r.decrease res a = .ok r2) : ResourcesInv r2 := by
  obtain ⟨n, rfl⟩ := ha
  rw [decrease_spec] at h
  split at h
  case isTrue =>
    rename_i hguard
    injection h with h1
    subst h1
    rw [truncInt_natCast] at hguard
    rcases res with p | sc | t | sp
    · cases p
      · exact ⟨rounded2_round_to_2 _, hr.wood_rounded, hr.stone_rounded,
          hr.skins_rounded, hr.herbs_rounded, hr.ore_rounded,
          hr.leather_rounded, hr.piety_rounded, hr.metal_rounded,
          hr.gold_rounded, hr.corpses_rounded, hr.max_food_rounded,
          hr.max_wood_rounded, hr.max_stone_rounded,
          le_trans (round_sub_le hr.food_rounded) hr.food_le, hr.wood_le,
          hr.stone_le, hr.skins_nonneg, hr.herbs_nonneg, hr.ore_nonneg,
          hr.leather_nonneg, hr.piety_nonneg, hr.metal_nonneg, hr.gold_nonneg,
          hr.corpses_nonneg⟩
      · exact ⟨hr.food_rounded, rounded2_round_to_2 _, hr.stone_rounded,
          hr.skins_rounded, hr.herbs_rounded, hr.ore_rounded,
          hr.leather_rounded, hr.piety_rounded, hr.metal_rounded,
          hr.gold_rounded, hr.corpses_rounded, hr.max_food_rounded,
          hr.max_wood_rounded, hr.max_stone_rounded, hr.food_le,
          le_trans (round_sub_le hr.wood_rounded) hr.wood_le,
          hr.stone_le, hr.skins_nonneg, hr.herbs_nonneg, hr.ore_nonneg,
          hr.leather_nonneg, hr.piety_nonneg, hr.metal_nonneg, hr.gold_nonneg,
          hr.corpses_nonneg⟩
      · exact ⟨hr.food_rounded, hr.wood_rounded, rounded2_round_to_2 _,
          hr.skins_rounded, hr.herbs_rounded, hr.ore_rounded,
          hr.leather_rounded, hr.piety_rounded, hr.metal_rounded,
          hr.gold_rounded, hr.corpses_rounded, hr.max_food_rounded,
          hr.max_wood_rounded, hr.max_stone_rounded, hr.food_le, hr.wood_le,
          le_trans (round_sub_le hr.stone_rounded) hr.stone_le,
          hr.skins_nonneg, hr.herbs_nonneg, hr.ore_nonneg,
          hr.leather_nonneg, hr.piety_nonneg, hr.metal_nonneg, hr.gold_nonneg,
          hr.corpses_nonneg⟩
    · cases sc
      · have hd : 0 ≤ r.skins - (n:ℚ) := by
          have := natCast_le_of_trunc r.skins n hr.skins_nonneg (by simp only [Resources.amountOf] at hguard; omega)
          linarith
        exact ⟨hr.food_rounded, hr.wood_rounded, hr.stone_rounded,
          rounded2_round_to_2 _, hr.herbs_rounded, hr.ore_rounded,
          hr.leather_rounded, hr.piety_rounded, hr.metal_rounded,
          hr.gold_rounded, hr.corpses_rounded, hr.max_food_rounded,
          hr.max_wood_rounded, hr.max_stone_rounded, hr.food_le, hr.wood_le,
          hr.stone_le, round_to_2_nonneg hd, hr.herbs_nonneg, hr.ore_nonneg,
          hr.leather_nonneg, hr.piety_nonneg, hr.metal_nonneg, hr.gold_nonneg,
          hr.corpses_nonneg⟩
      · have hd : 0 ≤ r.herbs - (n:ℚ) := by
          have := natCast_le_of_trunc r.herbs n hr.herbs_nonneg (by simp only [Resources.amountOf] at hguard; omega)
          linarith
        exact ⟨hr.food_rounded, hr.wood_rounded, hr.stone_rounded,
          hr.skins_rounded, rounded2_round_to_2 _, hr.ore_rounded,
          hr.leather_rounded, hr.piety_rounded, hr.metal_rounded,
          hr.gold_rounded, hr.corpses_rounded, hr.max_food_rounded,
          hr.max_wood_rounded, hr.max_stone_rounded, hr.food_le, hr.wood_le,
          hr.stone_le, hr.skins_nonneg, round_to_2_nonneg hd, hr.ore_nonneg,
          hr.leather_nonneg, hr.piety_nonneg, hr.metal_nonneg, hr.gold_nonneg,
          hr.corpses_nonneg⟩
      · have hd : 0 ≤ r.ore - (n:ℚ) := by
          have := natCast_le_of_trunc r.ore n hr.ore_nonneg (by simp only [Resources.amountOf] at hguard; omega)
          linarith
        exact ⟨hr.food_rounded, hr.wood_rounded, hr.stone_rounded,
          hr.skins_rounded, hr.herbs_rounded, rounded2_round_to_2 _,
          hr.leather_rounded, hr.piety_rounded, hr.metal_rounded,
          hr.gold_rounded, hr.corpses_rounded, hr.max_food_rounded,
          hr.max_wood_rounded, hr.max_stone_rounded, hr.food_le, hr.wood_le,
          hr.stone_le, hr.skins_nonneg, hr.herbs_nonneg, round_to_2_nonneg hd,
          hr.leather_nonneg, hr.piety_nonneg, hr.metal_nonneg, hr.gold_nonneg,
          hr.corpses_nonneg⟩
    · cases t
      · have hd : 0 ≤ r.leather - (n:ℚ) := by
          have := natCast_le_of_trunc r.leather n hr.leather_nonneg (by simp only [Resources.amountOf] at hguard; omega)
          linarith
        exact ⟨hr.food_rounded, hr.wood_rounded, hr.stone_rounded,
          hr.skins_rounded, hr.herbs_rounded, hr.ore_rounded,
          rounded2_round_to_2 _, hr.piety_rounded, hr.metal_rounded,
          hr.gold_rounded, hr.corpses_rounded, hr.max_food_rounded,
          hr.max_wood_rounded, hr.max_stone_rounded, hr.food_le, hr.wood_le,
          hr.stone_le, hr.skins_nonneg, hr.herbs_nonneg, hr.ore_nonneg,
          round_to_2_nonneg hd, hr.piety_nonneg, hr.metal_nonneg,
          hr.gold_nonneg, hr.corpses_nonneg⟩
      · have hd : 0 ≤ r.piety - (n:ℚ) := by
          have := natCast_le_of_trunc r.piety n hr.piety_nonneg (by simp only [Resources.amountOf] at hguard; omega)
          linarith
        exact ⟨hr.food_rounded, hr.wood_rounded, hr.stone_rounded,
          hr.skins_rounded, hr.herbs_rounded, hr.ore_rounded,
          hr.leather_rounded, rounded2_round_to_2 _, hr.metal_rounded,
          hr.gold_rounded, hr.corpses_rounded, hr.max_food_rounded,
          hr.max_wood_rounded, hr.max_stone_rounded, hr.food_le, hr.wood_le,
          hr.stone_le, hr.skins_nonneg, hr.herbs_nonneg, hr.ore_nonneg,
          hr.leather_nonneg, round_to_2_nonneg hd, hr.metal_nonneg,
          hr.gold_nonneg, hr.corpses_nonneg⟩
      · have hd : 0 ≤ r.metal - (n:ℚ) := by
          have := natCast_le_of_trunc r.metal n hr.metal_nonneg (by simp only [Resources.amountOf] at hguard; omega)
          linarith
        exact ⟨hr.food_rounded, hr.wood_rounded, hr.stone_rounded,
          hr.skins_rounded, hr.herbs_rounded, hr.ore_rounded,
          hr.leather_rounded, hr.piety_rounded, rounded2_round_to_2 _,
          hr.gold_rounded, hr.corpses_rounded, hr.max_food_rounded,
          hr.max_wood_rounded, hr.max_stone_rounded, hr.food_le, hr.wood_le,
          hr.stone_le, hr.skins_nonneg, hr.herbs_nonneg, hr.ore_nonneg,
          hr.leather_nonneg, hr.piety_nonneg, round_to_2_nonneg hd,
          hr.gold_nonneg, hr.corpses_nonneg⟩
    · cases sp
      · have hd : 0 ≤ r.gold - (n:ℚ) := by
          have := natCast_le_of_trunc r.gold n hr.gold_nonneg (by simp only [Resources.amountOf] at hguard; omega)
          linarith
        exact ⟨hr.food_rounded, hr.wood_rounded, hr.stone_rounded,
          hr.skins_rounded, hr.herbs_rounded, hr.ore_rounded,
          hr.leather_rounded, hr.piety_rounded, hr.metal_rounded,
          rounded2_round_to_2 _, hr.corpses_rounded, hr.max_food_rounded,
          hr.max_wood_rounded, hr.max_stone_rounded, hr.food_le, hr.wood_le,
          hr.stone_le, hr.skins_nonneg, hr.herbs_nonneg, hr.ore_nonneg,
          hr.leather_nonneg, hr.piety_nonneg, hr.metal_nonneg,
          round_to_2_nonneg hd, hr.corpses_nonneg⟩
      · have hd : 0 ≤ r.corpses - (n:ℚ) := by
          have := natCast_le_of_trunc r.corpses n hr.corpses_nonneg (by simp only [Resources.amountOf] at hguard; omega)
          linarith
        exact ⟨hr.food_rounded, hr.wood_rounded, hr.stone_rounded,
          hr.skins_rounded, hr.herbs_rounded, hr.ore_rounded,
          hr.leather_rounded, hr.piety_rounded, hr.metal_rounded,
          hr.gold_rounded, rounded2_round_to_2 _, hr.max_food_rounded,
          hr.max_wood_rounded, hr.max_stone_rounded, hr.food_le, hr.wood_le,
          hr.stone_le, hr.skins_nonneg, hr.herbs_nonneg, hr.ore_nonneg,
          hr.leather_nonneg, hr.piety_nonneg, hr.metal_nonneg, hr.gold_nonneg,
          round_to_2_nonneg hd⟩
  case isFalse => cases h

theorem storage_inv {r r2 : Resources} {p : PrimaryResource} {n : ℕ}
    (hr : ResourcesInv r)
    (h : r.increase_primary_resource_storage p (n : ℚ) = .ok r2) :
    ResourcesInv r2 := by
  have hle : ∀ cap : ℚ, Rounded2 cap → cap ≤ round_to_2 (cap + n) := by
    intro cap hcap
    have hsum : Rounded2 (cap + (n:ℚ)) := Rounded2.add hcap (Rounded2.natCast n)
    rw [show round_to_2 (cap + (n:ℚ)) = cap + (n:ℚ) from hsum]
    have : (0:ℚ) ≤ n := Nat.cast_nonneg n
    linarith
  cases p
  · injection h with h1
    subst h1
    exact ⟨hr.food_rounded, hr.wood_rounded, hr.stone_rounded,
      hr.skins_rounded, hr.herbs_rounded, hr.ore_rounded, hr.leather_rounded,
      hr.piety_rounded, hr.metal_rounded, hr.gold_rounded, hr.corpses_rounded,
      rounded2_round_to_2 _, hr.max_wood_rounded, hr.max_stone_rounded,
      le_trans hr.food_le (hle _ hr.max_food_rounded), hr.wood_le, hr.stone_le,
      hr.skins_nonneg, hr.herbs_nonneg, hr.ore_nonneg, hr.leather_nonneg,
      hr.piety_nonneg, hr.metal_nonneg, hr.gold_nonneg, hr.corpses_nonneg⟩
  · injection h with h1
    subst h1
    exact ⟨hr.food_rounded, hr.wood_rounded, hr.stone_rounded,
      hr.skins_rounded, hr.herbs_rounded, hr.ore_rounded, hr.leather_rounded,
      hr.piety_rounded, hr.metal_rounded, hr.gold_rounded, hr.corpses_rounded,
      hr.max_food_rounded, rounded2_round_to_2 _, hr.max_stone_rounded,
      hr.food_le, le_trans hr.wood_le (hle _ hr.max_wood_rounded),
      le_trans hr.stone_le (hle _ hr.max_wood_rounded),
      hr.skins_nonneg, hr.herbs_nonneg, hr.ore_nonneg, hr.leather_nonneg,
      hr.piety_nonneg, hr.metal_nonneg, hr.gold_nonneg, hr.corpses_nonneg⟩
  · injection h with h1
    subst h1
    exact ⟨hr.food_rounded, hr.wood_rounded, hr.stone_rounded,
      hr.skins_rounded, hr.herbs_rounded, hr.ore_rounded, hr.leather_rounded,
      hr.piety_rounded, hr.metal_rounded, hr.gold_rounded, hr.corpses_rounded,
      hr.max_food_rounded, hr.max_wood_rounded, rounded2_round_to_2 _,
      hr.food_le, hr.wood_le, hr.stone_le,
      hr.skins_nonneg, hr.herbs_nonneg, hr.ore_nonneg, hr.leather_nonneg,
      hr.piety_nonneg, hr.metal_nonneg, hr.gold_nonneg, hr.corpses_nonneg⟩

theorem apply_action_inv {ext : Ext} {r r2 : Resources} {a : Action}
    {ctx ctx2 : Context} (hr : ResourcesInv r)
    (h : r.apply_action ext a ctx = .ok (r2, ctx2)) : ResourcesInv r2 := by
  cases a with
  | idle =>
    simp only [Resources.apply_action] at h
    injection h with hp
    injection hp with h1 h2
    subst h1
    exact hr
  | collect p =>
    simp only [Resources.apply_action] at h
    exact increase_primary_inv hr h
  | recruitCitizen =>
    simp only [Resources.apply_action, bind, Except.bind] at h
    cases h1 : r.decrease (.primary .food) 20 with
    | error e => simp [h1] at h
    | ok rd =>
      simp only [h1, Resources.increase_food_consumption] at h
      injection h with hp
      injection hp with h2 h3
      subst h2
      have hd : ResourcesInv rd :=
        decrease_nat_inv hr ⟨20, by norm_num⟩ h1
      exact inv_update_rates hd _ rd.food_prod_rate rd.wood_prod_rate
        rd.stone_prod_rate
  | assignJob j =>
    simp only [Resources.apply_action, bind, Except.bind] at h
    cases j <;>
      (simp only [Job.get_resource_production,
        Resources.increase_resource_production_rate] at h
       injection h with hp
       injection hp with h1 h2
       subst h1
       exact inv_update_rates hr _ _ _ _)
  | dischargeJob j =>
    simp only [Resources.apply_action, bind, Except.bind] at h
    cases j <;>
      (simp only [Job.get_resource_production,
        Resources.decrease_resource_production_rate] at h
       injection h with hp
       injection hp with h1 h2
       subst h1
       exact inv_update_rates hr _ _ _ _)
  | build b =>
    simp only [Resources.apply_action, bind, Except.bind] at h
    cases b with
    | tent =>
      simp only [Buildings.costs, Buildings.primary_resource_storage_increase,
        Resources.payCosts, bind, Except.bind] at h
      cases h1 : r.decrease (.primary .wood) 2 with
      | error e => simp [h1] at h
      | ok r1 =>
        simp only [h1] at h
        cases h2 : r1.decrease (.secondary .skins) 2 with
        | error e => simp [h2] at h
        | ok rr =>
          simp only [h2] at h
          injection h with hp
          injection hp with h3 h4
          subst h3
          exact decrease_nat_inv
            (decrease_nat_inv hr ⟨2, by norm_num⟩ h1) ⟨2, by norm_num⟩ h2
    | woodenHut =>
      simp only [Buildings.costs, Buildings.primary_resource_storage_increase,
        Resources.payCosts, bind, Except.bind] at h
      cases h1 : r.decrease (.primary .wood) 20 with
      | error e => simp [h1] at h
      | ok r1 =>
        simp only [h1] at h
        cases h2 : r1.decrease (.secondary .skins) 1 with
        | error e => simp [h2] at h
        | ok rr =>
          simp only [h2] at h
          injection h with hp
          injection hp with h3 h4
          subst h3
          exact decrease_nat_inv
            (decrease_nat_inv hr ⟨20, by norm_num⟩ h1) ⟨1, by norm_num⟩ h2
    | barn =>
      simp only [Buildings.costs, Buildings.primary_resource_storage_increase,
        Resources.payCosts, bind, Except.bind] at h
      cases h1 : r.decrease (.primary .wood) 100 with
      | error e => simp [h1] at h
      | ok r1 =>
        simp only [h1] at h
        cases h2 : r1.increase_primary_resource_storage .food 100 with
        | error e => simp [h2] at h
        | ok rr =>
          simp only [h2] at h
          injection h with hp
          injection hp with h3 h4
          subst h3
          have h2b : r1.increase_primary_resource_storage .food ((100:ℕ) : ℚ) =
              .ok rr := by
            rw [show ((100:ℕ):ℚ) = (100:ℚ) by norm_num]
            exact h2
          exact storage_inv (decrease_nat_inv hr ⟨100, by norm_num⟩ h1) h2b
    | woodStockpile =>
      simp only [Buildings.costs, Buildings.primary_resource_storage_increase,
        Resources.payCosts, bind, Except.bind] at h
      cases h1 : r.decrease (.primary .wood) 100 with
      | error e => simp [h1] at h
      | ok r1 =>
        simp only [h1] at h
        cases h2 : r1.increase_primary_resource_storage .wood 100 with
        | error e => simp [h2] at h
        | ok rr =>
          simp only [h2] at h
          injection h with hp
          injection hp with h3 h4
          subst h3
          have h2b : r1.increase_primary_resource_storage .wood ((100:ℕ) : ℚ) =
              .ok rr := by
            rw [show ((100:ℕ):ℚ) = (100:ℚ) by norm_num]
            exact h2
          exact storage_inv (decrease_nat_inv hr ⟨100, by norm_num⟩ h1) h2b
    | stoneStockpile =>
      simp only [Buildings.costs, Buildings.primary_resource_storage_increase,
        Resources.payCosts, bind, Except.bind] at h
      cases h1 : r.decrease (.primary .wood) 100 with
      | error e => simp [h1] at h
      | ok r1 =>
        simp only [h1] at h
        cases h2 : r1.increase_primary_resource_storage .stone 100 with
        | error e => simp [h2] at h
        | ok rr =>
          simp only [h2] at h
          injection h with hp
          injection hp with h3 h4
          subst h3
          have h2b : r1.increase_primary_resource_storage .stone ((100:ℕ) : ℚ) =
              .ok rr := by
            rw [show ((100:ℕ):ℚ) = (100:ℚ) by norm_num]
            exact h2
          exact storage_inv (decrease_nat_inv hr ⟨100, by norm_num⟩ h1) h2b

/-- Claim C3 (amended): on every reachable `Resources` ledger, every amount
and capacity is fixed under 2-decimal rounding, food and wood are at most
their own capacities, stone is at most the wood capacity, and all secondary,
tertiary and special amounts are non-negative. -/
theorem c3_amended_resources_invariant (ext : Ext) (r : Resources)
    (h : RResources ext r) : ResourcesInv r := by
  induction h with
  | default => constructor <;> decide
  | work hprev hstep ih => exact work_inv ih hstep
  | action hprev hstep ih => exact apply_action_inv ih hstep

/-- Witness for the amended C3: the default ledger. -/
theorem c3_amended_witness : ResourcesInv Resources.default :=
  c3_amended_resources_invariant ext0 Resources.default RResources.default

/-- Claim C3 (counterexample): the ledger reached from the default ledger by
`apply_action(DischargeJob(Farmer))` followed by `work` is reachable and
stores the negative food amount −1.2, refuting the claimed non-negativity of
all stored amounts. -/
theorem c3_counterexample :
    RResources ext0 cexLedger ∧ cexLedger.food < 0 := by
  have h1 : Resources.default.apply_action ext0 (.dischargeJob .farmer) ctx0 =
      .ok (cexMid, ctx0) := by decide
  have h2 : cexMid.work ext0 ctx0 = .ok (cexLedger, ctx0) := by decide
  exact ⟨RResources.work (RResources.action RResources.default h1) h2,
    by decide⟩

/-! # Log compaction (claim C8) -/

theorem compactStep_of_ne {acc : List LogEntry} {x : LogEntry}
    (h : ∀ last ∈ acc.getLast?, last.1 ≠ x.1) :
    compactStep acc x = acc ++ [x] := by
  cases hacc : acc.getLast? with
  | none =>
    have : acc = [] := List.getLast?_eq_none_iff.mp hacc
    subst this
    rfl
  | some last =>
    simp only [compactStep, hacc]
    rw [if_neg (h last hacc)]

theorem foldl_compactStep_id :
    ∀ (l acc : List LogEntry),
      List.Chain' (fun p q => p.1 ≠ q.1) (acc ++ l) →
      List.foldl compactStep acc l = acc ++ l := by
  intro l
  induction l with
  | nil => intro acc h; simp
  | cons x xs ih =>
    intro acc h
    have hstep : compactStep acc x = acc ++ [x] := by
      apply compactStep_of_ne
      intro last hlast
      have hj := (List.chain'_append.mp h).2.2
      exact hj last hlast x rfl
    rw [List.foldl_cons, hstep]
    have hch : List.Chain' (fun p q : LogEntry => p.1 ≠ q.1) ((acc ++ [x]) ++ xs) := by
      rw [List.append_assoc]
      simpa using h
    rw [ih (acc ++ [x]) hch, List.append_assoc]
    rfl

theorem rebuildLog_of_ne {l : List LogEntry} {a : Action}
    (hchain : List.Chain' (fun p q => p.1 ≠ q.1) l)
    (hne : ∀ last ∈ l.getLast?, last.1 ≠ a) :
    rebuildLog l a = l ++ [(a, 1)] := by
  rw [rebuildLog, List.foldl_append, foldl_compactStep_id l [] (by simpa using hchain)]
  exact compactStep_of_ne (by simpa using hne)

theorem rebuildLog_of_eq {l : List LogEntry} {last : LogEntry}
    (hchain : List.Chain' (fun p q => p.1 ≠ q.1) l)
    (hlast : l.getLast? = some last) :
    rebuildLog l last.1 = l.dropLast ++ [(last.1, last.2 + 1)] := by
  rw [rebuildLog, List.foldl_append, foldl_compactStep_id l [] (by simpa using hchain)]
  simp only [List.nil_append, List.foldl_cons, List.foldl_nil, compactStep, hlast]
  rw [if_pos trivial]

theorem rebuildLog_chain {l : List LogEntry} (a : Action)
    (hchain : List.Chain' (fun p q => p.1 ≠ q.1) l) :
    List.Chain' (fun p q : LogEntry => p.1 ≠ q.1) (rebuildLog l a) := by
  cases hlast : l.getLast? with
  | none =>
    have : l = [] := List.getLast?_eq_none_iff.mp hlast
    subst this
    rw [rebuildLog]
    exact List.chain'_singleton _
  | some last =>
    by_cases heq : last.1 = a
    · rw [← heq, rebuildLog_of_eq hchain hlast]
      have hne : l ≠ [] := by
        intro hl
        rw [hl] at hlast
        cases hlast
      have hgl : l.getLast hne = last := by
        have hq := List.getLast?_eq_getLast l hne
        rw [hq] at hlast
        exact Option.some_inj.mp hlast
      have hl2 : l.dropLast ++ [last] = l := by
        rw [← hgl]
        exact List.dropLast_append_getLast hne
      rw [← hl2] at hchain
      rw [List.chain'_append] at hchain ⊢
      refine ⟨hchain.1, List.chain'_singleton _, ?_⟩
      intro x hx y hy
      have hxl := hchain.2.2 x hx last rfl
      simp only [List.head?_cons, Option.mem_def, Option.some_inj] at hy
      subst hy
      exact hxl
    · rw [rebuildLog_of_ne hchain]
      · rw [List.chain'_append]
        refine ⟨hchain, List.chain'_singleton _, ?_⟩
        intro x hx y hy
        rw [hlast] at hx
        simp only [Option.mem_def, Option.some_inj] at hx
        simp only [List.head?_cons, Option.mem_def, Option.some_inj] at hy
        subst hx
        subst hy
        exact heq
      · intro x hx
        rw [hlast] at hx
        simp only [Option.mem_def, Option.some_inj] at hx
        subst hx
        exact heq

theorem reach_log_chain {ext : Ext} {s : State} (h : Reach ext s) :
    List.Chain' (fun p q : LogEntry => p.1 ≠ q.1) s.log := by
  induction h with
  | genesis seed => exact List.chain'_nil
  | step fuel hs hdo hc ih =>
    obtain ⟨rp, cz, ld, ht⟩ := do_apply_action_ok_shape hdo
    obtain ⟨n, hn, hu⟩ := commit_some_shape hc
    subst hu
    subst ht
    exact rebuildLog_chain _ ih

/-- Claim C8: the compacted log of every reachable state has no two adjacent
entries with equal actions, and re-applying the last entry's action rebuilds
the log by incrementing that entry's count rather than appending. -/
theorem c8_log_compaction (ext : Ext) (s : State) (h : Reach ext s) :
    List.Chain' (fun p q : LogEntry => p.1 ≠ q.1) s.log ∧
    ∀ last ∈ s.log.getLast?,
      rebuildLog s.log last.1 = s.log.dropLast ++ [(last.1, last.2 + 1)] :=
  ⟨reach_log_chain h, fun _ hlast => rebuildLog_of_eq (reach_log_chain h) hlast⟩

/-- Witness for C8: one `Collect(Food)` step from genesis produces the log
`[(Collect Food, 1)]`; compaction and the increment law hold on it. -/
theorem c8_witness :
    List.Chain' (fun p q : LogEntry => p.1 ≠ q.1) (State.new 0).log ∧
    ∀ last ∈ (State.new 0).log.getLast?,
      rebuildLog (State.new 0).log last.1 =
        (State.new 0).log.dropLast ++ [(last.1, last.2 + 1)] :=
  c8_log_compaction ext0 (State.new 0) (Reach.genesis 0)

/-! # Replay verification (claim C1) -/

theorem except_bind_assoc {ε α β γ : Type} (x : Except ε α) (f : α → Except ε β)
    (g : β → Except ε γ) : (x.bind f).bind g = x.bind fun v => (f v).bind g := by
  cases x <;> rfl

theorem except_bind_congr {ε α β : Type} {x : Except ε α}
    {f g : α → Except ε β} (h : ∀ v, f v = g v) : x.bind f = x.bind g := by
  cases x with
  | error e => rfl
  | ok v => exact h v

theorem replaySteps_succ (ext : Ext) (a : Action) (n : ℕ) (st : State) :
    State.replaySteps ext a (n + 1) st =
      (State.replayOne ext a st).bind (State.replaySteps ext a n) := by
  rw [State.replaySteps, State.replayOne]
  cases st.do_apply_action ext a <;> rfl

theorem replaySteps_succ_back (ext : Ext) (a : Action) :
    ∀ (n : ℕ) (st : State),
      State.replaySteps ext a (n + 1) st =
        (State.replaySteps ext a n st).bind (State.replayOne ext a) := by
  intro n
  induction n with
  | zero =>
    intro st
    rw [replaySteps_succ]
    have h0 : State.replaySteps ext a 0 st = .ok st := rfl
    rw [h0]
    show (State.replayOne ext a st).bind (State.replaySteps ext a 0) =
      State.replayOne ext a st
    cases State.replayOne ext a st with
    | error e => rfl
    | ok v => rfl
  | succ n ih =>
    intro st
    rw [replaySteps_succ]
    calc (State.replayOne ext a st).bind (State.replaySteps ext a (n + 1))
        = (State.replayOne ext a st).bind
            (fun st2 => (State.replaySteps ext a n st2).bind (State.replayOne ext a)) :=
          except_bind_congr fun st2 => ih st2
      _ = ((State.replayOne ext a st).bind (State.replaySteps ext a n)).bind
            (State.replayOne ext a) := (except_bind_assoc _ _ _).symm
      _ = (State.replaySteps ext a (n + 1) st).bind (State.replayOne ext a) := by
          rw [← replaySteps_succ]

theorem replayLog_cons (ext : Ext) (e : LogEntry) (rest : List LogEntry)
    (st : State) :
    State.replayLog ext st (e :: rest) =
      (State.replaySteps ext e.1 e.2 st).bind
        (fun st2 => State.replayLog ext st2 rest) := by
  rw [State.replayLog]
  cases State.replaySteps ext e.1 e.2 st <;> rfl

theorem replayLog_singleton (ext : Ext) (a : Action) (n : ℕ) (st : State) :
    State.replayLog ext st [(a, n)] = State.replaySteps ext a n st := by
  rw [replayLog_cons]
  cases State.replaySteps ext a n st <;> rfl

theorem replayLog_append (ext : Ext) :
    ∀ (l1 l2 : List LogEntry) (st : State),
      State.replayLog ext st (l1 ++ l2) =
        (State.replayLog ext st l1).bind
          (fun st2 => State.replayLog ext st2 l2) := by
  intro l1
  induction l1 with
  | nil =>
    intro l2 st
    rfl
  | cons e rest ih =>
    intro l2 st
    rw [List.cons_append, replayLog_cons, replayLog_cons, except_bind_assoc]
    exact except_bind_congr fun st2 => ih l2 st2

theorem replayLog_rebuild (ext : Ext) {l : List LogEntry}
    (hchain : List.Chain' (fun p q => p.1 ≠ q.1) l) (a : Action) (st : State) :
    State.replayLog ext st (rebuildLog l a) =
      (State.replayLog ext st l).bind (State.replayOne ext a) := by
  cases hlast : l.getLast? with
  | none =>
    have hl : l = [] := List.getLast?_eq_none_iff.mp hlast
    subst hl
    show State.replayLog ext st [(a, 1)] = (Except.ok st).bind (State.replayOne ext a)
    rw [replayLog_singleton, replaySteps_succ_back]
    rfl
  | some last =>
    by_cases heq : last.1 = a
    · subst heq
      rw [rebuildLog_of_eq hchain hlast]
      have hne : l ≠ [] := by
        intro hl
        rw [hl] at hlast
        cases hlast
      have hgl : l.getLast hne = last := by
        have hq := List.getLast?_eq_getLast l hne
        rw [hq] at hlast
        exact Option.some_inj.mp hlast
      have hl2 : l.dropLast ++ [last] = l := by
        rw [← hgl]
        exact List.dropLast_append_getLast hne
      calc State.replayLog ext st (l.dropLast ++ [(last.1, last.2 + 1)])
          = (State.replayLog ext st l.dropLast).bind
              (fun st2 => State.replayLog ext st2 [(last.1, last.2 + 1)]) :=
            replayLog_append ext _ _ st
        _ = (State.replayLog ext st l.dropLast).bind
              (fun st2 => (State.replaySteps ext last.1 last.2 st2).bind
                (State.replayOne ext last.1)) := by
            refine except_bind_congr fun st2 => ?_
            rw [replayLog_singleton, replaySteps_succ_back]
        _ = ((State.replayLog ext st l.dropLast).bind
              (fun st2 => State.replaySteps ext last.1 last.2 st2)).bind
              (State.replayOne ext last.1) := (except_bind_assoc _ _ _).symm
        _ = (State.replayLog ext st (l.dropLast ++ [(last.1, last.2)])).bind
              (State.replayOne ext last.1) := by
            rw [replayLog_append ext]
            refine congrArg (fun z => Except.bind z (State.replayOne ext last.1)) ?_
            exact except_bind_congr fun st2 => (replayLog_singleton ext last.1 last.2 st2).symm
        _ = (State.replayLog ext st l).bind (State.replayOne ext last.1) := by
            rw [show ((last.1, last.2) : LogEntry) = last from rfl, hl2]
    · rw [rebuildLog_of_ne hchain]
      · rw [replayLog_append ext]
        refine except_bind_congr fun st2 => ?_
        rw [replayLog_singleton, replaySteps_succ_back]
        rfl
      · intro x hx
        rw [hlast] at hx
        simp only [Option.mem_def, Option.some_inj] at hx
        subst hx
        exact heq

theorem do_apply_action_nonces (ext : Ext) (s : State) (a : Action)
    (tail : List ℕ) (hlen : s.iterations < s.nonces.length) :
    State.do_apply_action ext { s with nonces := s.nonces ++ tail } a =
      (State.do_apply_action ext s a).map
        (fun t => { t with nonces := s.nonces ++ tail }) := by
  have hnonce : (s.nonces ++ tail).getD s.iterations 0 =
      s.nonces.getD s.iterations 0 := List.getD_append _ _ _ _ hlen
  simp only [State.do_apply_action, State.prev_iteration_nonce,
    State.get_context, State.get_rng, State.hash, bind, Except.bind, hnonce]
  cases hw : s.resources.work ext
      { rng := { base := { seed := s.seed, prev_hash := s.prev_hash }, consumed := 0 } } with
  | error e => rfl
  | ok w =>
    dsimp only
    cases ha : w.1.apply_action ext a w.2 with
    | error e => rfl
    | ok w2 =>
      dsimp only
      cases hcz : s.citizens.apply_action a with
      | error e => rfl
      | ok cz =>
        dsimp only
        cases hld : s.land.apply_action a with
        | error e => rfl
        | ok ld => rfl

theorem reach_replay (ext : Ext) {s : State} (h : Reach ext s) :
    ∀ tail : List ℕ,
      State.replayLog ext { State.new s.seed with nonces := s.nonces ++ tail }
          s.log =
        .ok { s with nonces := s.nonces ++ tail } := by
  induction h with
  | genesis seed =>
    intro tail
    rfl
  | @step s0 t0 u0 a0 fuel hs hdo hc ih =>
    intro tail
    obtain ⟨rp, cz, ld, ht⟩ := do_apply_action_ok_shape hdo
    obtain ⟨n, hn, hu⟩ := commit_some_shape hc
    subst hu
    subst ht
    dsimp only
    rw [List.append_assoc]
    rw [replayLog_rebuild ext (reach_log_chain hs) a0 _]
    rw [ih ([n] ++ tail)]
    show State.replayOne ext a0 { s0 with nonces := s0.nonces ++ ([n] ++ tail) } = _
    rw [State.replayOne]
    rw [do_apply_action_nonces ext s0 a0 ([n] ++ tail)
      (by rw [reach_nonces_len hs]; omega)]
    rw [hdo]
    rfl

/-- Claim C1: `check()` succeeds on every state produced from genesis by a
sequence of successful `apply_action` calls: replaying the compacted log
from a fresh genesis state with the same seed reproduces the state, so the
final hashes agree. -/
theorem c1_check_roundtrip (ext : Ext) (s : State) (h : Reach ext s) :
    s.check ext = .ok () := by
  have hrep := reach_replay ext h []
  rw [List.append_nil] at hrep
  rw [State.check, hrep]
  dsimp only
  rw [if_pos rfl]

/-- Witness for C1: the genesis state passes `check()`. -/
theorem c1_witness : (State.new 0).check ext0 = .ok () :=
  c1_check_roundtrip ext0 (State.new 0) (Reach.genesis 0)

end Cliciv
